import Mathlib

/-!
Verification development for the pgn-branch-buddy PGN parsing core.

The embedded code comes from:
  * src/src/utils/parsePgnService.ts  (cleanPgn, parseGame, buildTree)
  * src/src/utils/treeToVariations.ts (extractVariationsFromTree and helpers)
  * src/src/utils/pgnParser.ts        (PGNParser: tokenizePGN, parseTokens,
    flattenVariations, extractMovesManually, fallback branch)

Two external capabilities are modelled rather than translated, because their
source is not part of the repository:
  * the chess.js move validator (spec section 4.4 treats it as an external
    rules-engine capability consumed in strict SAN mode) is given here as a
    conforming chess-rules implementation;
  * the @mliebelt/pgn-parser AST builder is modelled from the spec
    (section 4.2 tokenizer, standard RAV attachment of a parenthesized group
    to the move it textually follows), reusing the move-token regex that the
    repository itself contains in tokenizePGN.
-/

set_option maxHeartbeats 4000000
set_option maxRecDepth 8000

namespace PgnBuddy

/-! ### Chess move validator

Modelled from the spec: section 4.4 describes the Move Validator as an
external capability (chess.js in this repository) that applies a SAN string
to a board state in strict mode, returning the new state or a legality
failure.  The implementation below is a conforming chess-rules engine:
board state, pseudo-legal generation, king-safety filtering, castling,
en passant, promotion, SAN rendering with the disambiguation rules of
chess.js, and strict lookup by comparison of decoration-stripped SAN. -/

inductive Col where
  | white
  | black
deriving DecidableEq, Repr

def Col.other : Col → Col
  | .white => .black
  | .black => .white

inductive Kind where
  | pawn
  | knight
  | bishop
  | rook
  | queen
  | king
deriving DecidableEq, Repr

structure Pc where
  c : Col
  k : Kind
deriving DecidableEq, Repr

abbrev Board := List (Option Pc)

structure Position where
  board : Board
  turn : Col
  wk : Bool
  wq : Bool
  bk : Bool
  bq : Bool
  ep : Option Nat
  half : Nat
  full : Nat
deriving DecidableEq, Repr

def fileOf (sq : Nat) : Nat := sq % 8

def rankOf (sq : Nat) : Nat := sq / 8

def shift (sq : Nat) (df dr : Int) : Option Nat :=
  let f : Int := (fileOf sq : Int) + df
  let r : Int := (rankOf sq : Int) + dr
  if 0 ≤ f ∧ f < 8 ∧ 0 ≤ r ∧ r < 8 then some (r * 8 + f).toNat else none

def pieceAt (b : Board) (sq : Nat) : Option Pc := b.getD sq none

def rayGo (b : Board) : Nat → Nat → Int → Int → List Nat
  | 0, _, _, _ => []
  | fuel + 1, sq, df, dr =>
    match shift sq df dr with
    | none => []
    | some t =>
      match pieceAt b t with
      | none => t :: rayGo b fuel t df dr
      | some _ => [t]

def ray (b : Board) (sq : Nat) (df dr : Int) : List Nat := rayGo b 8 sq df dr

def knightD : List (Int × Int) := [(1, 2), (2, 1), (2, -1), (1, -2), (-1, -2), (-2, -1), (-2, 1), (-1, 2)]

def kingD : List (Int × Int) := [(1, 0), (1, 1), (0, 1), (-1, 1), (-1, 0), (-1, -1), (0, -1), (1, -1)]

def orthoD : List (Int × Int) := [(1, 0), (0, 1), (-1, 0), (0, -1)]

def diagD : List (Int × Int) := [(1, 1), (-1, 1), (-1, -1), (1, -1)]

def holds (b : Board) (s : Option Nat) (c : Col) (k : Kind) : Bool :=
  match s with
  | none => false
  | some sq => pieceAt b sq = some ⟨c, k⟩

def firstAlong (b : Board) (sq : Nat) (d : Int × Int) : Option Pc :=
  match (ray b sq d.1 d.2).getLast? with
  | none => none
  | some t => pieceAt b t

def slider (b : Board) (sq : Nat) (a : Col) (ds : List (Int × Int)) (k : Kind) : Bool :=
  ds.any fun d =>
    match firstAlong b sq d with
    | some p => p.c = a ∧ (p.k = k ∨ p.k = .queen)
    | none => false

def attacked (b : Board) (t : Nat) (a : Col) : Bool :=
  let pd : Int := if a = .white then 1 else -1
  (([-1, 1] : List Int).any fun df => holds b (shift t df (-pd)) a .pawn)
  || knightD.any (fun d => holds b (shift t d.1 d.2) a .knight)
  || kingD.any (fun d => holds b (shift t d.1 d.2) a .king)
  || slider b t a orthoD .rook
  || slider b t a diagD .bishop

structure Mv where
  src : Nat
  dst : Nat
  promo : Option Kind := none
  castleK : Bool := false
  castleQ : Bool := false
  isEp : Bool := false
deriving DecidableEq, Repr

def promoKinds : List Kind := [.queen, .rook, .bishop, .knight]

def pawnTargets (p : Position) (sq dst : Nat) (ep : Bool) : List Mv :=
  let lastRank : Nat := if p.turn = .white then 7 else 0
  if rankOf dst = lastRank then
    promoKinds.map fun k => { src := sq, dst := dst, promo := some k, isEp := ep }
  else [{ src := sq, dst := dst, isEp := ep }]

def pawnMoves (p : Position) (sq : Nat) : List Mv :=
  let pd : Int := if p.turn = .white then 1 else -1
  let startRank : Nat := if p.turn = .white then 1 else 6
  let pushes :=
    match shift sq 0 pd with
    | some f1 =>
      match pieceAt p.board f1 with
      | none =>
        pawnTargets p sq f1 false ++
          (if rankOf sq = startRank then
            match shift sq 0 (2 * pd) with
            | some f2 =>
              match pieceAt p.board f2 with
              | none => [{ src := sq, dst := f2 }]
              | some _ => []
            | none => []
          else [])
      | some _ => []
    | none => []
  let caps := ([-1, 1] : List Int).flatMap fun df =>
    match shift sq df pd with
    | some t =>
      match pieceAt p.board t with
      | some q => if q.c = p.turn then [] else pawnTargets p sq t false
      | none => if p.ep = some t then [{ src := sq, dst := t, isEp := true }] else []
    | none => []
  pushes ++ caps

def leapMoves (p : Position) (sq : Nat) (ds : List (Int × Int)) : List Mv :=
  ds.filterMap fun d =>
    match shift sq d.1 d.2 with
    | none => none
    | some t =>
      match pieceAt p.board t with
      | none => some { src := sq, dst := t }
      | some q => if q.c = p.turn then none else some { src := sq, dst := t }

def slideMoves (p : Position) (sq : Nat) (ds : List (Int × Int)) : List Mv :=
  ds.flatMap fun d =>
    (ray p.board sq d.1 d.2).filterMap fun t =>
      match pieceAt p.board t with
      | none => some { src := sq, dst := t }
      | some q => if q.c = p.turn then none else some { src := sq, dst := t }

def castleMoves (p : Position) : List Mv :=
  let c := p.turn
  let e : Nat := if c = .white then 4 else 60
  let opp := c.other
  let kside :=
    if (if c = .white then p.wk else p.bk)
        ∧ pieceAt p.board e = some ⟨c, .king⟩
        ∧ pieceAt p.board (e + 3) = some ⟨c, .rook⟩
        ∧ pieceAt p.board (e + 1) = none ∧ pieceAt p.board (e + 2) = none
        ∧ attacked p.board e opp = false ∧ attacked p.board (e + 1) opp = false then
      [{ src := e, dst := e + 2, castleK := true }]
    else []
  let qside :=
    if (if c = .white then p.wq else p.bq)
        ∧ pieceAt p.board e = some ⟨c, .king⟩
        ∧ pieceAt p.board (e - 4) = some ⟨c, .rook⟩
        ∧ pieceAt p.board (e - 1) = none ∧ pieceAt p.board (e - 2) = none
        ∧ pieceAt p.board (e - 3) = none
        ∧ attacked p.board e opp = false ∧ attacked p.board (e - 1) opp = false then
      [{ src := e, dst := e - 2, castleQ := true }]
    else []
  kside ++ qside

def pseudoMoves (p : Position) : List Mv :=
  ((List.range 64).flatMap fun sq =>
    match pieceAt p.board sq with
    | some ⟨c, k⟩ =>
      if c = p.turn then
        match k with
        | .pawn => pawnMoves p sq
        | .knight => leapMoves p sq knightD
        | .bishop => slideMoves p sq diagD
        | .rook => slideMoves p sq orthoD
        | .queen => slideMoves p sq (orthoD ++ diagD)
        | .king => leapMoves p sq kingD
      else []
    | none => []) ++ castleMoves p

def applyMv (p : Position) (m : Mv) : Position :=
  let c := p.turn
  let pc := (pieceAt p.board m.src).getD ⟨c, .pawn⟩
  let isCap := (pieceAt p.board m.dst).isSome || m.isEp
  let b1 := p.board.set m.src none
  let b2 := if m.isEp then b1.set (if c = .white then m.dst - 8 else m.dst + 8) none else b1
  let placed : Pc := match m.promo with | some k => ⟨c, k⟩ | none => pc
  let b3 := b2.set m.dst (some placed)
  let b4 :=
    if m.castleK then (b3.set (m.src + 3) none).set (m.src + 1) (some ⟨c, .rook⟩)
    else if m.castleQ then (b3.set (m.src - 4) none).set (m.src - 1) (some ⟨c, .rook⟩)
    else b3
  let dr : Int := (rankOf m.dst : Int) - (rankOf m.src : Int)
  let newEp := if pc.k = .pawn ∧ (dr = 2 ∨ dr = -2) then some ((m.src + m.dst) / 2) else none
  let kingMove := pc.k = .king
  { board := b4
    turn := c.other
    wk := p.wk && !((c = .white ∧ (kingMove ∨ m.src = 7)) ∨ m.dst = 7 : Bool)
    wq := p.wq && !((c = .white ∧ (kingMove ∨ m.src = 0)) ∨ m.dst = 0 : Bool)
    bk := p.bk && !((c = .black ∧ (kingMove ∨ m.src = 63)) ∨ m.dst = 63 : Bool)
    bq := p.bq && !((c = .black ∧ (kingMove ∨ m.src = 56)) ∨ m.dst = 56 : Bool)
    ep := newEp
    half := if pc.k = .pawn ∨ isCap then 0 else p.half + 1
    full := if c = .black then p.full + 1 else p.full }

def kingSq (b : Board) (c : Col) : Nat :=
  ((List.range 64).find? fun sq => pieceAt b sq = some ⟨c, .king⟩).getD 64

def inCheck (p : Position) (c : Col) : Bool :=
  let ks := kingSq p.board c
  if ks < 64 then attacked p.board ks c.other else false

def legalMoves (p : Position) : List Mv :=
  (pseudoMoves p).filter fun m => inCheck (applyMv p m) p.turn = false

def fileSym : List Char := ['a', 'b', 'c', 'd', 'e', 'f', 'g', 'h']

def rankSym : List Char := ['1', '2', '3', '4', '5', '6', '7', '8']

def sqName (sq : Nat) : String := ⟨[fileSym.getD (fileOf sq) 'a', rankSym.getD (rankOf sq) '1']⟩

def kindSym : Kind → String
  | .pawn => ""
  | .knight => "N"
  | .bishop => "B"
  | .rook => "R"
  | .queen => "Q"
  | .king => "K"

def movedKind (p : Position) (m : Mv) : Kind := ((pieceAt p.board m.src).map (·.k)).getD .pawn

def disambig (p : Position) (m : Mv) (all : List Mv) : String :=
  let mk := movedKind p m
  let amb := all.filter fun mo =>
    decide (mo.src ≠ m.src) && decide (mo.dst = m.dst) && decide (movedKind p mo = mk)
  if amb.isEmpty then ""
  else
    let sameFile := amb.any fun mo => decide (fileOf mo.src = fileOf m.src)
    let sameRank := amb.any fun mo => decide (rankOf mo.src = rankOf m.src)
    if sameFile && sameRank then sqName m.src
    else if sameFile then ⟨[rankSym.getD (rankOf m.src) '1']⟩
    else ⟨[fileSym.getD (fileOf m.src) 'a']⟩

def sanOf (p : Position) (m : Mv) (all : List Mv) : String :=
  if m.castleK then "O-O"
  else if m.castleQ then "O-O-O"
  else
    let k := movedKind p m
    let cap := (pieceAt p.board m.dst).isSome || m.isEp
    let promoStr := match m.promo with | some pk => "=" ++ kindSym pk | none => ""
    if k = .pawn then
      (if cap then (⟨[fileSym.getD (fileOf m.src) 'a']⟩ : String) ++ "x" else "") ++ sqName m.dst ++ promoStr
    else kindSym k ++ disambig p m all ++ (if cap then "x" else "") ++ sqName m.dst

def dropFirstEq : List Char → List Char
  | [] => []
  | '=' :: r => r
  | c :: r => c :: dropFirstEq r

def isDecor (c : Char) : Bool := c = '?' || c = '!'

def suffixLang (l : List Char) : Bool :=
  match l with
  | [] => true
  | c :: r => if c = '+' || c = '#' then r.all isDecor else l.all isDecor

def stripDecor (l : List Char) : List Char :=
  if suffixLang l then []
  else
    match l with
    | [] => []
    | c :: r => c :: stripDecor r

def strippedSan (s : String) : String := ⟨stripDecor (dropFirstEq s.data)⟩

def chessApply (p : Position) (san : String) : Option Position :=
  let all := legalMoves p
  match all.find? (fun m => strippedSan (sanOf p m all) = strippedSan san) with
  | some m => some (applyMv p m)
  | none => none

def backKinds : List Kind := [.rook, .knight, .bishop, .queen, .king, .bishop, .knight, .rook]

def startBoard : Board :=
  (backKinds.map fun k => some ⟨.white, k⟩)
    ++ List.replicate 8 (some ⟨.white, .pawn⟩)
    ++ List.replicate 32 none
    ++ List.replicate 8 (some ⟨.black, .pawn⟩)
    ++ (backKinds.map fun k => some ⟨.black, k⟩)

def startPos : Position :=
  { board := startBoard, turn := .white, wk := true, wq := true, bk := true, bq := true
    ep := none, half := 0, full := 1 }

/-! ### Sanitizer

Translated from cleanPgn in src/src/utils/parsePgnService.ts.  Each pass
mirrors one JavaScript replace call, with JavaScript regex semantics
(left-to-right global scanning, lazy and greedy quantifier behaviour)
reproduced on character lists.  Braces are written with hex escapes. -/

def isWsC (c : Char) : Bool :=
  c = ' ' || c = '\t' || c = '\n' || c = '\r' || c = '\x0b' || c = '\x0c'

/-- Pass 1a of cleanPgn: the global replace of well-formed brace blocks
with the empty string.  A brace block match starts at a left brace, spans
non-right-brace characters and ends at the next right brace; a left brace
with no right brace after it does not match and is kept.  Dropping through
the closing brace is expressed with drop of the length of the
non-right-brace span plus one. -/
def stripCommentsF : Nat → List Char → List Char
  | 0, l => l
  | _ + 1, [] => []
  | fuel + 1, c :: r =>
    if c = '\x7b' ∧ r.contains '\x7d' then
      stripCommentsF fuel (r.drop ((r.takeWhile (fun d => ¬ d = '\x7d')).length + 1))
    else c :: stripCommentsF fuel r

def stripComments (l : List Char) : List Char := stripCommentsF l.length l

/-- Pass 1b of cleanPgn: the global removal of NAG markers, a dollar sign
followed by at least one digit. -/
def stripNagsF : Nat → List Char → List Char
  | 0, l => l
  | _ + 1, [] => []
  | fuel + 1, c :: r =>
    if c = '$' ∧ (r.headD ' ').isDigit then stripNagsF fuel (r.drop (r.takeWhile Char.isDigit).length)
    else c :: stripNagsF fuel r

def stripNags (l : List Char) : List Char := stripNagsF l.length l

/-- Helper for pass 2a: at the current point, the regex fragment of one or
more digits followed by a dot and an optional pair of further dots; returns
the number of characters it consumes. -/
def matchNumAt (l : List Char) : Option Nat :=
  let ds := l.takeWhile Char.isDigit
  if ds.isEmpty then none
  else
    match l.drop ds.length with
    | '.' :: '.' :: '.' :: _ => some (ds.length + 3)
    | '.' :: _ => some (ds.length + 1)
    | _ => none

/-- Helper for pass 2a: lazy scan after a left brace for the first point
where the move-number fragment matches, crossing only non-right-brace
characters; returns the skipped count and the fragment length. -/
def scanToNum : List Char → Option (Nat × Nat)
  | [] => none
  | c :: r =>
    if c = '\x7d' then none
    else
      match matchNumAt (c :: r) with
      | some n => some (0, n)
      | none => (scanToNum r).map fun p => (p.1 + 1, p.2)

/-- Pass 2a of cleanPgn.  The source intends to keep the move number of an
unterminated comment, but the replacement callback has no capture group to
read: its second parameter is the match offset, so the matched region is
replaced by the offset rendered in decimal.  The offset argument counts
characters of the string this pass scans. -/
def offsetGoF : Nat → List Char → Nat → List Char
  | 0, l, _ => l
  | _ + 1, [], _ => []
  | fuel + 1, c :: rest, i =>
    if c = '\x7b' then
      match scanToNum rest with
      | some p => (Nat.repr i).data ++ offsetGoF fuel (rest.drop (p.1 + p.2)) (i + 1 + p.1 + p.2)
      | none => c :: offsetGoF fuel rest (i + 1)
    else c :: offsetGoF fuel rest (i + 1)

def offsetGo (l : List Char) (i : Nat) : List Char := offsetGoF l.length l i

/-- Pass 2b of cleanPgn: the multiline global removal of a left brace
followed by non-right-brace characters up to a line end.  With the greedy
quantifier the match runs to the end of the string when no right brace
follows; when one does, the match must stop before the last newline of the
non-right-brace span, and fails when that span has no newline. -/
def untermF : Nat → List Char → List Char
  | 0, l => l
  | _ + 1, [] => []
  | fuel + 1, c :: rest =>
    if c = '\x7b' then
      if rest.contains '\x7d' then
        let seg := rest.takeWhile (fun d => ¬ d = '\x7d')
        match (seg.reverse.findIdx? (fun d => d = '\n')) with
        | some j => untermF fuel (rest.drop (seg.length - 1 - j))
        | none => c :: untermF fuel rest
      else []
    else c :: untermF fuel rest

def unterm (l : List Char) : List Char := untermF l.length l

/-- Pass 3 of cleanPgn: runs of four or more dots collapse to exactly
three dots. -/
def collapseDotsF : Nat → List Char → List Char
  | 0, l => l
  | _ + 1, [] => []
  | fuel + 1, c :: r =>
    if c = '.' then
      let run := 1 + (r.takeWhile (fun d => d = '.')).length
      (if 4 ≤ run then ['.', '.', '.'] else List.replicate run '.')
        ++ collapseDotsF fuel (r.drop (r.takeWhile (fun d => d = '.')).length)
    else c :: collapseDotsF fuel r

def collapseDots (l : List Char) : List Char := collapseDotsF l.length l

/-- Pass 4 of cleanPgn: runs of two or more whitespace characters collapse
to one space; a single whitespace character is left as it is. -/
def collapseWsF : Nat → List Char → List Char
  | 0, l => l
  | _ + 1, [] => []
  | fuel + 1, c :: r =>
    if isWsC c then
      if 1 ≤ (r.takeWhile isWsC).length then ' ' :: collapseWsF fuel (r.drop (r.takeWhile isWsC).length)
      else c :: collapseWsF fuel r
    else c :: collapseWsF fuel r

def collapseWs (l : List Char) : List Char := collapseWsF l.length l

def trimWsL (l : List Char) : List Char :=
  ((l.dropWhile isWsC).reverse.dropWhile isWsC).reverse

/-- Translated from cleanPgn in src/src/utils/parsePgnService.ts: strip
well-formed comments and NAGs, run the two unterminated-brace repairs,
collapse long dot runs, collapse doubled whitespace and trim. -/
def cleanPgn (raw : String) : String :=
  ⟨trimWsL (collapseWs (collapseDots (unterm (offsetGo (stripNags (stripComments raw.data)) 0))))⟩

/-! ### Tokenizer

Translated from tokenizePGN in src/src/utils/pgnParser.ts: a left paren
yields an Open token, a right paren a Close token, a space is skipped, and
otherwise the move regex (an optional move-number group of digits plus one
to three dots plus whitespace, adjacent to castling or a piece or pawn
move with optional disambiguation, capture marker, promotion and check
suffix) is tried; on failure one character is skipped.  The regex-engine
backtracking over the optional one-character groups is reproduced by
trying the group-present branch first and falling back to the
group-absent branch. -/

def isFileC (c : Char) : Bool := 'a' ≤ c && c ≤ 'h'

def isRankC (c : Char) : Bool := '1' ≤ c && c ≤ '8'

def isPieceC (c : Char) : Bool := c = 'N' || c = 'B' || c = 'R' || c = 'Q' || c = 'K'

def matchCheckSfx : List Char → Nat
  | c :: _ => if c = '+' || c = '#' then 1 else 0
  | [] => 0

def matchPromoSfx : List Char → Nat
  | '=' :: p :: r => if isPieceC p then 2 + matchCheckSfx r else matchCheckSfx ('=' :: p :: r)
  | l => matchCheckSfx l

def matchDestSq : List Char → Option Nat
  | f :: r :: rest => if isFileC f && isRankC r then some (2 + matchPromoSfx rest) else none
  | _ => none

def matchXDest (l : List Char) : Option Nat :=
  match l with
  | 'x' :: r =>
    match matchDestSq r with
    | some n => some (n + 1)
    | none => matchDestSq l
  | _ => matchDestSq l

def matchRkXDest (l : List Char) : Option Nat :=
  match l with
  | c :: r =>
    if isRankC c then
      match matchXDest r with
      | some n => some (n + 1)
      | none => matchXDest l
    else matchXDest l
  | [] => none

def matchFlRkXDest (l : List Char) : Option Nat :=
  match l with
  | c :: r =>
    if isFileC c then
      match matchRkXDest r with
      | some n => some (n + 1)
      | none => matchRkXDest l
    else matchRkXDest l
  | [] => none

def matchMoveCore (l : List Char) : Option Nat :=
  match l with
  | 'O' :: '-' :: 'O' :: '-' :: 'O' :: _ => some 5
  | 'O' :: '-' :: 'O' :: _ => some 3
  | c :: r =>
    if isPieceC c then
      match matchFlRkXDest r with
      | some n => some (n + 1)
      | none => matchFlRkXDest l
    else matchFlRkXDest l
  | [] => none

/-- The optional move-number group: one or more digits, one to three dots
(greedy) and trailing whitespace.  When the following move fails to match,
regex backtracking inside this group cannot help, because a move pattern
can start neither with a digit run remainder, a dot nor whitespace, so
falling straight back to the number-absent alternative is equivalent. -/
def matchNumberPart (l : List Char) : Option Nat :=
  let ds := l.takeWhile Char.isDigit
  if ds.isEmpty then none
  else
    let r := l.drop ds.length
    let dots := (r.takeWhile (fun d => d = '.')).length
    if dots = 0 then none
    else
      let used := min dots 3
      some (ds.length + used + ((r.drop used).takeWhile isWsC).length)

def matchToken (l : List Char) : Option (String × Nat) :=
  match matchNumberPart l with
  | some nlen =>
    match matchMoveCore (l.drop nlen) with
    | some mlen => some (⟨(l.drop nlen).take mlen⟩, nlen + mlen)
    | none =>
      match matchMoveCore l with
      | some mlen => some (⟨l.take mlen⟩, mlen)
      | none => none
  | none =>
    match matchMoveCore l with
    | some mlen => some (⟨l.take mlen⟩, mlen)
    | none => none

inductive Token where
  | lparen
  | rparen
  | mv (san : String)
deriving DecidableEq, Repr

/-- Translated from tokenizePGN in src/src/utils/pgnParser.ts.  Every
successful token match consumes at least one character (a destination
square alone is two), so the continuation is written as a drop on the
tail. -/
def tokenizeF : Nat → List Char → List Token
  | 0, _ => []
  | _ + 1, [] => []
  | fuel + 1, '(' :: r => .lparen :: tokenizeF fuel r
  | fuel + 1, ')' :: r => .rparen :: tokenizeF fuel r
  | fuel + 1, ' ' :: r => tokenizeF fuel r
  | fuel + 1, c :: r =>
    match matchToken (c :: r) with
    | some (san, n) => .mv san :: tokenizeF fuel (r.drop (n - 1))
    | none => tokenizeF fuel r

def tokenize (l : List Char) : List Token := tokenizeF l.length l

/-! ### AST of the external PGN parser

Modelled from the spec: parseGame delegates parsing of the sanitized text
to the external @mliebelt/pgn-parser package, whose source is not part of
the repository.  Following section 4.2 and section 4.3 of the spec and
the package's documented AST shape, the movetext becomes a list of moves,
and each parenthesized group attaches to the variations of the move it
textually follows (standard RAV attachment).  A group with no preceding
move at its level is discarded, and unmatched parens are absorbed, per
the spec's stray-token rule. -/

inductive PMove where
  | mk (san : String) (variations : List (List PMove))

def PMove.san : PMove → String
  | .mk s _ => s

def PMove.variations : PMove → List (List PMove)
  | .mk _ v => v

def attachVar (group : List PMove) : List PMove → List PMove
  | [] => []
  | .mk s vs :: ps => .mk s (vs ++ [group]) :: ps

def astLoopF : Nat → List Token → List (List PMove) → List PMove → List PMove
  | 0, _, _, cur => cur.reverse
  | _ + 1, [], [], cur => cur.reverse
  | fuel + 1, [], parent :: stack, cur => astLoopF fuel [] stack (attachVar cur.reverse parent)
  | fuel + 1, .lparen :: ts, stack, cur => astLoopF fuel ts (cur :: stack) []
  | fuel + 1, .rparen :: ts, [], cur => astLoopF fuel ts [] cur
  | fuel + 1, .rparen :: ts, parent :: stack, cur => astLoopF fuel ts stack (attachVar cur.reverse parent)
  | fuel + 1, .mv s :: ts, stack, cur => astLoopF fuel ts stack (.mk s [] :: cur)

def astLoop (ts : List Token) : List PMove :=
  astLoopF (2 * ts.length + 2) ts [] []

/-- Modelled from the spec: the AST the external parser hands to
buildTree, one list of moves for the first game of the movetext. -/
def parseMovetext (s : String) : List PMove := astLoop (tokenize s.data)

/-! ### Tree builder

Translated from src/src/utils/parsePgnService.ts: the Node interface,
buildTree and parseGame.  A Position value stands for the FEN snapshot
string the source stores (FEN serialization is injective on positions, so
equality of snapshots is equality of positions).  The imperative buildTree
appends every node created in its loop to the previously created node, so
a call contributes at most one child (the chain head) to its parent; the
variations of a move are appended to the new node before the main-line
continuation is, and each variation is replayed from the position after
the move.  Errors are the typed throws of the source. -/

inductive Node where
  | mk (fen : Position) (move : String) (children : List Node)

def Node.fen : Node → Position
  | .mk f _ _ => f

def Node.move : Node → String
  | .mk _ m _ => m

def Node.children : Node → List Node
  | .mk _ _ c => c

inductive PGNError where
  | illegalSan (san : String)
  | noGame
deriving DecidableEq, Repr

def GAME_RESULTS : List String := ["1-0", "0-1", "1/2-1/2", "*"]

mutual

/-- Translated from buildTree in src/src/utils/parsePgnService.ts: the
chain of nodes created from one move list, starting at the given
position.  Returns the chain head, or none when every move was skipped.
A token with an empty or result SAN is skipped; an illegal SAN aborts the
whole parse with the source's Illegal-SAN error carrying the move text.
The fuel argument is the explicit recursion-depth guard the spec requires
of implementations (sections 4.3, 5 and 9); the caller supplies a bound
that dominates the recursion depth of its AST, so the fuel-zero branch is
never taken. -/
def buildChain : Nat → List PMove → Position → Except PGNError (Option Node)
  | 0, _, _ => .ok none
  | _ + 1, [], _ => .ok none
  | fuel + 1, .mk san vars :: rest, fen =>
    if san = "" ∨ san ∈ GAME_RESULTS then buildChain fuel rest fen
    else
      match chessApply fen san with
      | none => .error (.illegalSan san)
      | some fen2 =>
        match buildVarGroups fuel vars fen2 with
        | .error e => .error e
        | .ok vheads =>
          match buildChain fuel rest fen2 with
          | .error e => .error e
          | .ok cont => .ok (some (.mk fen san (vheads ++ cont.toList)))
termination_by structural fuel => fuel

/-- The loop over m.variations in buildTree: each variation group is
replayed from the position after the move and contributes its chain head
(if any) as a child of the move's node, in order, before the main-line
continuation child. -/
def buildVarGroups : Nat → List (List PMove) → Position → Except PGNError (List Node)
  | 0, _, _ => .ok []
  | _ + 1, [], _ => .ok []
  | fuel + 1, v :: vs, fen =>
    match buildChain fuel v fen with
    | .error e => .error e
    | .ok h =>
      match buildVarGroups fuel vs fen with
      | .error e => .error e
      | .ok t => .ok (h.toList ++ t)
termination_by structural fuel => fuel

end

/-- Translated from parseGame in src/src/utils/parsePgnService.ts:
sanitize, parse the movetext with the external parser, then build the
tree from the starting position.  The source throws when the parser
returns no games; that is modelled as the case of a token-free sanitized
text. -/
def parseGame (pgn : String) : Except PGNError Node :=
  let sanitized := cleanPgn pgn
  let toks := tokenize sanitized.data
  if toks.isEmpty then .error .noGame
  else
    match buildChain (2 * toks.length + 2) (astLoop toks) startPos with
    | .error e => .error e
    | .ok c => .ok (.mk startPos "" c.toList)

/-! ### Variation flattener

Translated from src/src/utils/treeToVariations.ts: the Variation record,
extractVariationsFromTree, extractMainLine, extractSideVariations and
collectMovesFromBranch.  The module-level variationCounter is reset at the
start of extractVariationsFromTree and threaded explicitly here. -/

structure Variation where
  id : String
  name : String
  moves : List String
  mainline : Bool
deriving DecidableEq, Repr

/-- Translated from extractMainLine: follow the first child repeatedly,
collecting each followed child's move. -/
def extractMainLine : Node → List String
  | .mk _ _ [] => []
  | .mk _ _ (c :: _) => c.move :: extractMainLine c

/-- Translated from collectMovesFromBranch: push the node's move, then
follow the first child. -/
def collectMovesFromBranch : Node → List String
  | .mk _ mv [] => [mv]
  | .mk _ mv (c :: _) => mv :: collectMovesFromBranch c

/-- The inner loop of extractSideVariations over the children from index
one on: one Variation per branch, built from the accumulated path moves
plus the branch's own first-child chain, numbered by the incremented
counter. -/
def sidePushLoop : List Node → List String → Nat → Nat × List Variation
  | [], _, c => (c, [])
  | b :: bs, path, c =>
    let vmoves := path ++ collectMovesFromBranch b
    if 0 < vmoves.length then
      let c2 := c + 1
      let v : Variation :=
        ⟨"variation-" ++ Nat.repr c2, "Variation " ++ Nat.repr c2, vmoves, false⟩
      let rest := sidePushLoop bs path c2
      (rest.1, v :: rest.2)
    else
      let rest := sidePushLoop bs path c
      (rest.1, rest.2)

/-- Translated from extractSideVariations: emit one Variation per child
beyond the first, then continue down the first child with the path
extended by its move when that move is nonempty. -/
def extractSideVariations : Node → List String → Nat → Nat × List Variation
  | .mk _ _ [], _, counter => (counter, [])
  | .mk _ _ (c0 :: cs), pathMoves, counter =>
    let first :=
      if 1 < (c0 :: cs).length then sidePushLoop cs pathMoves counter
      else (counter, [])
    let newPath := if c0.move = "" then pathMoves else pathMoves ++ [c0.move]
    let rest := extractSideVariations c0 newPath first.1
    (rest.1, first.2 ++ rest.2)

/-- Translated from extractVariationsFromTree: reset the counter, emit
the main line (when nonempty) as the first Variation, then all side
variations. -/
def extractVariationsFromTree (root : Node) : List Variation :=
  let mainLine := extractMainLine root
  let headPart : Nat × List Variation :=
    if 0 < mainLine.length then
      (1, [⟨"variation-" ++ Nat.repr 1, "Main Line", mainLine, true⟩])
    else (0, [])
  let side := extractSideVariations root [] headPart.1
  headPart.2 ++ side.2

/-! ### The PGNParser module

Translated from src/src/utils/pgnParser.ts: the class PGNParser with its
Variation record (here PVariation, which also carries the optional
description field), the tokenizer shared above, parseTokens and
parseVariation (index loops rendered as list recursion with a fuel bound
that dominates the index travel), flattenVariations,
generateVariationName, cleanPGNForParsing and extractMovesManually.  The
private chess member is only used by methods outside the claims. -/

structure PVariation where
  id : String
  name : String
  moves : List String
  description : Option String := none
  mainline : Bool
deriving DecidableEq, Repr

inductive SubVar where
  | mk (startIndex : Nat) (moves : List String) (subs : List SubVar)

def SubVar.startIndex : SubVar → Nat
  | .mk i _ _ => i

def SubVar.moves : SubVar → List String
  | .mk _ m _ => m

def SubVar.subs : SubVar → List SubVar
  | .mk _ _ s => s

/-- Translated from parseVariation: consume tokens until the matching
close paren, collecting moves and sub-variations with their branch
indices; returns the collected data and the tokens after the close.  The
fuel argument dominates the source's index loop, which always advances. -/
def parseVariationF : Nat → List Token → List String → List SubVar →
    List String × List SubVar × List Token
  | 0, ts, accM, accS => (accM.reverse, accS.reverse, ts)
  | _ + 1, [], accM, accS => (accM.reverse, accS.reverse, [])
  | fuel + 1, .mv s :: ts, accM, accS => parseVariationF fuel ts (s :: accM) accS
  | fuel + 1, .lparen :: ts, accM, accS =>
    let sub := parseVariationF fuel ts [] []
    parseVariationF fuel sub.2.2 accM (.mk accM.length sub.1 sub.2.1 :: accS)
  | _ + 1, .rparen :: ts, accM, accS => (accM.reverse, accS.reverse, ts)

/-- Translated from parseTokens: the top-level loop collecting the main
line and the variations hanging off it, each with the branch index equal
to the number of main-line moves seen so far; a stray close paren is
skipped. -/
def parseTokensF : Nat → List Token → List String → List SubVar →
    List String × List SubVar
  | 0, _, accM, accS => (accM.reverse, accS.reverse)
  | _ + 1, [], accM, accS => (accM.reverse, accS.reverse)
  | fuel + 1, .mv s :: ts, accM, accS => parseTokensF fuel ts (s :: accM) accS
  | fuel + 1, .lparen :: ts, accM, accS =>
    let sub := parseVariationF fuel ts [] []
    parseTokensF fuel sub.2.2 accM (.mk accM.length sub.1 sub.2.1 :: accS)
  | fuel + 1, .rparen :: ts, accM, accS => parseTokensF fuel ts accM accS

/-- Translated from generateVariationName. -/
def generateVariationName (moves : List String) (idx : Nat) : String :=
  if moves.length = 0 then "Variation " ++ Nat.repr idx
  else
    Nat.repr idx ++ ". " ++ String.intercalate " " (moves.take 3)
      ++ (if 3 < moves.length then "..." else "")

mutual

/-- Translated from flattenVariations: push the main line at top level
only, then per variation push its record and recurse into its
sub-variations.  The fuel argument bounds the recursion depth; the caller
supplies a bound that dominates the nesting of the variation tree, so the
fuel-zero branch is never taken. -/
def flattenVariations : Nat → List String → List SubVar → List String → List PVariation
  | 0, _, _, _ => []
  | fuel + 1, parentMoves, vars, currentPath =>
    (if currentPath.length = 0 then
      [⟨"main", "Main Line", parentMoves, none, true⟩]
    else []) ++ flattenLoop fuel parentMoves vars currentPath 0
termination_by structural fuel => fuel

/-- The forEach loop of flattenVariations with its running index. -/
def flattenLoop : Nat → List String → List SubVar → List String → Nat → List PVariation
  | 0, _, _, _, _ => []
  | _ + 1, _, [], _, _ => []
  | fuel + 1, parentMoves, .mk si ms subs :: rest, path, idx =>
    let completeMoves := parentMoves.take si ++ ms
    let vid :=
      if path.length = 0 then "variation-" ++ Nat.repr (idx + 1)
      else String.intercalate "-" path ++ "-" ++ Nat.repr (idx + 1)
    let v : PVariation := ⟨vid, generateVariationName ms (idx + 1), completeMoves, none, false⟩
    (v :: (if 0 < subs.length then
        flattenVariations fuel completeMoves subs (path ++ ["variation-" ++ Nat.repr (idx + 1)])
      else []))
      ++ flattenLoop fuel parentMoves rest path (idx + 1)
termination_by structural fuel => fuel

end

def stripDelimsF (openC closeC : Char) : Nat → List Char → List Char
  | 0, l => l
  | _ + 1, [] => []
  | fuel + 1, c :: r =>
    if c = openC ∧ r.contains closeC then
      stripDelimsF openC closeC fuel (r.drop ((r.takeWhile (fun d => ¬ d = closeC)).length + 1))
    else c :: stripDelimsF openC closeC fuel r

/-- Translated from cleanPGNForParsing: the generic removal of a
delimited block, used for square-bracket headers and brace comments. -/
def stripDelims (openC closeC : Char) (l : List Char) : List Char :=
  stripDelimsF openC closeC l.length l

def stripPctTagsF : Nat → List Char → List Char
  | 0, l => l
  | _ + 1, [] => []
  | fuel + 1, c :: r =>
    if c = '[' ∧ (r.headD ' ') = '%' ∧ r.contains ']' then
      stripPctTagsF fuel (r.drop ((r.takeWhile (fun d => ¬ d = ']')).length + 1))
    else c :: stripPctTagsF fuel r

/-- Translated from cleanPGNForParsing: removal of percent-tag blocks, a
left bracket followed by a percent sign, through the next right
bracket. -/
def stripPctTags (l : List Char) : List Char := stripPctTagsF l.length l

def resultLits : List (List Char) := [['1', '-', '0'], ['0', '-', '1'], ['1', '/', '2', '-', '1', '/', '2'], ['*']]

/-- A position where the result-marker regex anchored at the end of the
text matches: optional whitespace, one of the four markers, optional
whitespace, end of string. -/
def isResultTail (l : List Char) : Bool :=
  let l1 := l.drop (l.takeWhile isWsC).length
  resultLits.any fun R =>
    decide (l1.take R.length = R) && (l1.drop R.length).all isWsC

/-- Translated from the result-marker removal: the first position whose
tail matches is replaced by nothing. -/
def stripResultTail : List Char → List Char
  | [] => []
  | c :: r => if isResultTail (c :: r) then [] else c :: stripResultTail r

def collapseWsAllF : Nat → List Char → List Char
  | 0, l => l
  | _ + 1, [] => []
  | fuel + 1, c :: r =>
    if isWsC c then ' ' :: collapseWsAllF fuel (r.drop (r.takeWhile isWsC).length)
    else c :: collapseWsAllF fuel r

/-- Translated from the whitespace collapse of cleanPGNForParsing: every
whitespace run becomes one space. -/
def collapseWsAll (l : List Char) : List Char := collapseWsAllF l.length l

/-- Translated from cleanPGNForParsing in src/src/utils/pgnParser.ts. -/
def cleanPGNForParsing (pgn : String) : String :=
  ⟨trimWsL (collapseWsAll (stripResultTail (stripPctTags
    (stripDelims '\x7b' '\x7d' (stripDelims '[' ']' pgn.data)))))⟩

/-- Translated from extractVariationsWithBranching: tokenize, parse the
token stream into the main line and the variation tree, then flatten. -/
def extractVariationsWithBranching (gameText : String) : List PVariation :=
  let ts := tokenize gameText.data
  let parsed := parseTokensF (2 * ts.length + 4) ts [] []
  flattenVariations (ts.length + 2) parsed.1 parsed.2 []

/-- Translated from the try branch of PGNParser.parsePGN.  Every
operation of the branch is total here, so the embedded parsePGN always
takes this path; the catch branch is modelled separately as
fallbackResult. -/
def parsePGN (pgn : String) : List PVariation :=
  extractVariationsWithBranching (cleanPGNForParsing pgn)

/-- Helper for the paren stripping of extractMovesManually: does a right
paren occur before any left paren. -/
def closesBeforeOpen : List Char → Bool
  | [] => false
  | ')' :: _ => true
  | '(' :: _ => false
  | _ :: r => closesBeforeOpen r

def stripParensOnceF : Nat → List Char → List Char
  | 0, l => l
  | _ + 1, [] => []
  | fuel + 1, c :: r =>
    if c = '(' ∧ closesBeforeOpen r then
      stripParensOnceF fuel (r.drop ((r.takeWhile (fun d => ¬ d = ')')).length + 1))
    else c :: stripParensOnceF fuel r

/-- One pass of the innermost-paren removal regex: remove every group of
a left paren, paren-free content and a right paren. -/
def stripParensOnce (l : List Char) : List Char := stripParensOnceF l.length l

def hasSimpleParen : List Char → Bool
  | [] => false
  | '(' :: r => closesBeforeOpen r || hasSimpleParen r
  | _ :: r => hasSimpleParen r

/-- The while loop removing parenthesized groups until none remains; the
fuel equals the text length, which bounds the iterations because every
iteration removes at least two characters. -/
def stripParensRecF : Nat → List Char → List Char
  | 0, l => l
  | f + 1, l => if hasSimpleParen l then stripParensRecF f (stripParensOnce l) else l

/-- The move-and-optional-second-move regex of extractMovesManually,
attempted at one position: required digits, an optional dot, whitespace,
a move, then whitespace and an optional second move.  Returns the
captured moves and the consumed length. -/
def manualAt (l : List Char) : Option (List String × Nat) :=
  let ds := l.takeWhile Char.isDigit
  if ds.isEmpty then none
  else
    let rest0 := l.drop ds.length
    let dotN : Nat := match rest0 with | '.' :: _ => 1 | _ => 0
    let rest1 := rest0.drop dotN
    let ws1 := (rest1.takeWhile isWsC).length
    let rest2 := rest1.drop ws1
    match matchMoveCore rest2 with
    | none => none
    | some m1len =>
      let m1 : String := ⟨rest2.take m1len⟩
      let rest3 := rest2.drop m1len
      let ws2 := (rest3.takeWhile isWsC).length
      let rest4 := rest3.drop ws2
      match matchMoveCore rest4 with
      | some m2len =>
        some ([m1, ⟨rest4.take m2len⟩], ds.length + dotN + ws1 + m1len + ws2 + m2len)
      | none => some ([m1], ds.length + dotN + ws1 + m1len + ws2)

def manualScanF : Nat → List Char → List String
  | 0, _ => []
  | _ + 1, [] => []
  | fuel + 1, c :: r =>
    match manualAt (c :: r) with
    | some p => p.1 ++ manualScanF fuel (r.drop (p.2 - 1))
    | none => manualScanF fuel r

/-- The global scan of the extractMovesManually regex; every match
consumes at least one character. -/
def manualScan (l : List Char) : List String := manualScanF l.length l

/-- Translated from extractMovesManually in src/src/utils/pgnParser.ts:
remove headers, comments, parenthesized variations (recursively) and the
result marker, then scan for numbered move pairs. -/
def extractMovesManually (pgn : String) : List String :=
  let t1 := stripDelims '[' ']' pgn.data
  let t2 := stripDelims '\x7b' '\x7d' t1
  let t3 := stripParensRecF t2.length t2
  let t4 := stripResultTail t3
  manualScan t4

/-- Translated from the catch branch of PGNParser.parsePGN: the manual
extraction wrapped, when nonempty, in a single main-tagged Variation
record.  In the source this branch runs only when the try block throws. -/
def fallbackResult (pgn : String) : List PVariation :=
  let manualMoves := extractMovesManually pgn
  if 0 < manualMoves.length then
    [⟨"main", "Main Line", manualMoves, none, true⟩]
  else []

/-! ### Claim-level notions

Replay of a move list through the validator, the well-formedness
predicate the built trees satisfy, and tree navigation helpers. -/

/-- Replay a move list through the validator from a given position. -/
def replayGo : Position → List String → Option Position
  | fen, [] => some fen
  | fen, mv :: ms =>
    match chessApply fen mv with
    | none => none
    | some fen2 => replayGo fen2 ms

/-- Replay a move list through the validator from the standard initial
position, as the spec's flattened-variation replay does. -/
def replayMoves (ms : List String) : Option Position := replayGo startPos ms

/-- Well-formedness of a non-root node taken at a position: the stored
fen is that position, the move is nonempty and accepted by the validator
in strict mode from that fen, and every child is well formed at the
position the move produces. -/
inductive TreeOk : Position → Node → Prop where
  | node : ∀ (fen : Position) (mv : String) (ch : List Node) (fen2 : Position),
      mv ≠ "" → chessApply fen mv = some fen2 →
      (∀ c ∈ ch, TreeOk fen2 c) → TreeOk fen (.mk fen mv ch)

/-- Navigate a tree along a list of child indices. -/
def descend : Node → List Nat → Option Node
  | n, [] => some n
  | n, i :: is =>
    match n.children.get? i with
    | none => none
    | some c => descend c is

/-- The side-branch move lists along the main spine of a tree, with the
accumulated main-line prefix: for each node along the repeated first
child, each child beyond the first contributes the prefix up to that node
followed by the branch's own first-child chain. -/
def branchLines : Node → List String → List (List String)
  | .mk _ _ [], _ => []
  | .mk _ _ (c0 :: cs), acc =>
    (cs.map fun b => acc ++ collectMovesFromBranch b)
      ++ branchLines c0 (acc ++ [c0.move])

/-- Sequential numbering of side-variation records from a start index,
as the amended flattener description assigns ids. -/
def numberSides (start : Nat) : List (List String) → List Variation
  | [] => []
  | ms :: rest =>
    ⟨"variation-" ++ Nat.repr start, "Variation " ++ Nat.repr start, ms, false⟩
      :: numberSides (start + 1) rest

/-- The amended flattener contract, written from the corrected claim:
first the main line (when nonempty) with id variation-1, name Main Line
and the mainline flag, then one record per side branch hanging off the
main spine in top-down, left-to-right order, numbered sequentially;
branch points strictly inside side branches contribute nothing. -/
def specFlatten (root : Node) : List Variation :=
  let mainLine := extractMainLine root
  (if 0 < mainLine.length then
    [⟨"variation-" ++ Nat.repr 1, "Main Line", mainLine, true⟩]
  else [])
    ++ numberSides (if 0 < mainLine.length then 2 else 1) (branchLines root [])

/-- Nonemptiness of every move down the main spine of a tree. -/
def spineNE : Node → Bool
  | .mk _ _ [] => true
  | .mk _ _ (c :: _) => !(c.move = "" : Bool) && spineNE c
/-! ### Supporting lemmas

Invariants of the tree builder and the flattener, used by the claim
theorems below. -/

/-- Every node a buildChain call produces is well formed at the position
it was built from, for every fuel value; the fuel-exhausted branch
produces no node at all.  Proved jointly with the corresponding statement
for buildVarGroups by induction on the fuel. -/
theorem build_ok : ∀ fuel : Nat,
    (∀ (ms : List PMove) (fen : Position) (n : Node),
      buildChain fuel ms fen = .ok (some n) → TreeOk fen n) ∧
    (∀ (vs : List (List PMove)) (fen : Position) (l : List Node),
      buildVarGroups fuel vs fen = .ok l → ∀ c ∈ l, TreeOk fen c) := by
  intro fuel
  induction fuel with
  | zero =>
    constructor
    · intro ms fen n h
      simp [buildChain] at h
    · intro vs fen l h c hc
      simp only [buildVarGroups, Except.ok.injEq] at h
      subst h
      simp at hc
  | succ fuel ih =>
    constructor
    · intro ms fen n h
      cases ms with
      | nil => simp [buildChain] at h
      | cons m rest =>
        cases m with
        | mk san vars =>
          rw [buildChain] at h
          by_cases hskip : san = "" ∨ san ∈ GAME_RESULTS
          · rw [if_pos hskip] at h
            exact ih.1 rest fen n h
          · rw [if_neg hskip] at h
            cases happ : chessApply fen san with
            | none =>
              simp only [happ] at h
              exact Except.noConfusion h
            | some fen2 =>
              simp only [happ] at h
              cases hvg : buildVarGroups fuel vars fen2 with
              | error e =>
                simp only [hvg] at h
                exact Except.noConfusion h
              | ok vheads =>
                simp only [hvg] at h
                cases hbc : buildChain fuel rest fen2 with
                | error e =>
                  simp only [hbc] at h
                  exact Except.noConfusion h
                | ok cont =>
                  simp only [hbc, Except.ok.injEq, Option.some.injEq] at h
                  subst h
                  have hne : san ≠ "" := fun hs => hskip (Or.inl hs)
                  refine TreeOk.node fen san _ fen2 hne happ ?_
                  intro c hc
                  rcases List.mem_append.mp hc with hv | hcont
                  · exact ih.2 vars fen2 vheads hvg c hv
                  · cases cont with
                    | none => simp [Option.toList] at hcont
                    | some mm =>
                      simp only [Option.toList, List.mem_singleton] at hcont
                      subst hcont
                      exact ih.1 rest fen2 _ hbc
    · intro vs fen l h c hc
      cases vs with
      | nil =>
        rw [buildVarGroups] at h
        simp only [Except.ok.injEq] at h
        subst h
        simp at hc
      | cons v rest =>
        rw [buildVarGroups] at h
        cases hbc : buildChain fuel v fen with
        | error e =>
          simp only [hbc] at h
          exact Except.noConfusion h
        | ok hh =>
          simp only [hbc] at h
          cases hvg : buildVarGroups fuel rest fen with
          | error e =>
            simp only [hvg] at h
            exact Except.noConfusion h
          | ok t =>
            simp only [hvg, Except.ok.injEq] at h
            subst h
            rcases List.mem_append.mp hc with h1 | h2
            · cases hh with
              | none => simp [Option.toList] at h1
              | some mm =>
                simp only [Option.toList, List.mem_singleton] at h1
                subst h1
                exact ih.1 v fen _ hbc
            · exact ih.2 rest fen t hvg c h2

/-- A tree parseGame returns has the start position and the empty move at
the root, and every child of the root is well formed at the start
position. -/
theorem parseGame_shape : ∀ (s : String) (root : Node), parseGame s = .ok root →
    Node.fen root = startPos ∧ Node.move root = "" ∧
      ∀ c ∈ Node.children root, TreeOk startPos c := by
  intro s root h
  rw [parseGame] at h
  by_cases hemp : (tokenize (cleanPgn s).data).isEmpty
  · simp only [if_pos hemp] at h
    exact Except.noConfusion h
  · simp only [if_neg hemp] at h
    cases hbc : buildChain (2 * (tokenize (cleanPgn s).data).length + 2)
        (astLoop (tokenize (cleanPgn s).data)) startPos with
    | error e =>
      rw [hbc] at h
      exact Except.noConfusion h
    | ok c =>
      rw [hbc] at h
      simp only [Except.ok.injEq] at h
      subst h
      refine ⟨rfl, rfl, ?_⟩
      intro ch hch
      cases c with
      | none => simp [Option.toList, Node.children] at hch
      | some n =>
        simp only [Option.toList, Node.children, List.mem_singleton] at hch
        subst hch
        exact (build_ok _).1 _ _ _ hbc

/-- Replaying the branch chain of a well-formed node from its position
succeeds. -/
theorem collect_replay : ∀ (fen : Position) (n : Node), TreeOk fen n →
    (replayGo fen (collectMovesFromBranch n)).isSome := by
  intro fen n h
  induction h with
  | node fen mv ch fen2 hne happ hch ih =>
    cases ch with
    | nil => simp [collectMovesFromBranch, replayGo, happ]
    | cons c cs =>
      rw [collectMovesFromBranch]
      simp only [replayGo, happ]
      exact ih c (by simp)

/-- Replaying the extracted main line from the children's shared position
succeeds when every child is well formed there. -/
theorem mainline_replay : ∀ (k : Nat) (n : Node) (fen : Position), sizeOf n ≤ k →
    (∀ c ∈ Node.children n, TreeOk fen c) →
    (replayGo fen (extractMainLine n)).isSome := by
  intro k
  induction k with
  | zero =>
    intro n fen hle
    cases n with
    | mk f m ch => simp [Node.mk.sizeOf_spec] at hle
  | succ k ih =>
    intro n fen hle hch
    cases n with
    | mk f m ch =>
      cases ch with
      | nil => simp [extractMainLine, replayGo]
      | cons c cs =>
        rw [extractMainLine]
        have hc : TreeOk fen c := hch c (by simp [Node.children])
        cases hc with
        | node _ mv ch2 fen2 hne happ hch2 =>
          simp only [Node.move, replayGo, happ]
          refine ih _ fen2 ?_ ?_
          · simp only [Node.mk.sizeOf_spec, List.cons.sizeOf_spec] at hle ⊢
            omega
          · intro c2 hc2
            exact hch2 c2 hc2

theorem replayGo_append : ∀ (xs ys : List String) (fen : Position),
    replayGo fen (xs ++ ys) =
      (match replayGo fen xs with
        | none => none
        | some f2 => replayGo f2 ys) := by
  intro xs
  induction xs with
  | nil => intro ys fen; simp [replayGo]
  | cons x xs ih =>
    intro ys fen
    rw [List.cons_append, replayGo, replayGo]
    cases hc : chessApply fen x with
    | none => rfl
    | some f2 => exact ih ys f2

/-- Every record the side-variation loop pushes takes its moves from the
path followed by one branch's own chain. -/
theorem sidePushLoop_mem : ∀ (bs : List Node) (path : List String) (c : Nat) (v : Variation),
    v ∈ (sidePushLoop bs path c).2 → ∃ b ∈ bs, v.moves = path ++ collectMovesFromBranch b := by
  intro bs
  induction bs with
  | nil => intro path c v hv; simp [sidePushLoop] at hv
  | cons b bs ih =>
    intro path c v hv
    simp only [sidePushLoop] at hv
    by_cases hlen : 0 < (path ++ collectMovesFromBranch b).length
    · simp only [if_pos hlen, List.mem_cons] at hv
      rcases hv with hv | hv
      · subst hv
        exact ⟨b, by simp, rfl⟩
      · rcases ih path (c + 1) v hv with ⟨b2, hb2, hm⟩
        exact ⟨b2, by simp [hb2], hm⟩
    · simp only [if_neg hlen] at hv
      rcases ih path c v hv with ⟨b2, hb2, hm⟩
      exact ⟨b2, by simp [hb2], hm⟩

/-- Every side variation the walk emits replays from the start position,
provided the accumulated path replays to the position the children share
and the children are well formed. -/
theorem sides_replay : ∀ (k : Nat) (n : Node) (path : List String) (cnt : Nat) (fen : Position),
    sizeOf n ≤ k →
    (∀ c ∈ Node.children n, TreeOk fen c) →
    replayGo startPos path = some fen →
    ∀ v ∈ (extractSideVariations n path cnt).2, (replayMoves v.moves).isSome := by
  intro k
  induction k with
  | zero =>
    intro n path cnt fen hle
    cases n with
    | mk f m ch => simp [Node.mk.sizeOf_spec] at hle
  | succ k ih =>
    intro n path cnt fen hle hch hpath v hv
    cases n with
    | mk f m ch =>
      cases ch with
      | nil => simp [extractSideVariations] at hv
      | cons c0 cs =>
        rw [extractSideVariations] at hv
        have hfirst : (if 1 < (c0 :: cs).length then sidePushLoop cs path cnt else (cnt, ([] : List Variation)))
            = sidePushLoop cs path cnt := by
          by_cases h1 : 1 < (c0 :: cs).length
          · rw [if_pos h1]
          · have hcs : cs = [] := by
              cases cs with
              | nil => rfl
              | cons a l => simp at h1
            subst hcs
            rw [if_neg h1]
            simp [sidePushLoop]
        rw [hfirst] at hv
        rcases List.mem_append.mp hv with hv1 | hv2
        · rcases sidePushLoop_mem cs path cnt v hv1 with ⟨b, hb, hm⟩
          have hbok : TreeOk fen b := hch b (by simp [Node.children, hb])
          rw [replayMoves, hm, replayGo_append, hpath]
          exact collect_replay fen b hbok
        · have hc0 : TreeOk fen c0 := hch c0 (by simp [Node.children])
          cases hc0 with
          | node _ mv ch2 fen2 hne happ hch2 =>
            simp only [Node.move, if_neg hne] at hv2
            have hnewpath : replayGo startPos (path ++ [mv]) = some fen2 := by
              rw [replayGo_append, hpath]
              simp [replayGo, happ]
            refine ih _ (path ++ [mv]) _ fen2 ?_ ?_ hnewpath v hv2
            · simp only [Node.mk.sizeOf_spec, List.cons.sizeOf_spec] at hle ⊢
              omega
            · exact hch2

theorem collect_ne : ∀ (b : Node), collectMovesFromBranch b ≠ [] := by
  intro b
  cases b with
  | mk f m ch =>
    cases ch with
    | nil => simp [collectMovesFromBranch]
    | cons c cs => simp [collectMovesFromBranch]

/-- The side-variation loop numbers its records sequentially from the
incoming counter plus one; its guard is always taken because a branch
chain is never empty. -/
theorem sidePushLoop_eq : ∀ (bs : List Node) (path : List String) (c : Nat),
    sidePushLoop bs path c =
      (c + bs.length, numberSides (c + 1) (bs.map fun b => path ++ collectMovesFromBranch b)) := by
  intro bs
  induction bs with
  | nil => intro path c; simp [sidePushLoop, numberSides]
  | cons b bs ih =>
    intro path c
    have hne : 0 < (path ++ collectMovesFromBranch b).length := by
      have := collect_ne b
      cases hx : collectMovesFromBranch b with
      | nil => exact absurd hx this
      | cons a l => simp [hx]
    simp only [sidePushLoop, if_pos hne, ih, List.map_cons, numberSides, List.length_cons]
    rw [Prod.mk.injEq]
    exact ⟨by omega, rfl⟩

theorem numberSides_append : ∀ (xs ys : List (List String)) (s : Nat),
    numberSides s (xs ++ ys) = numberSides s xs ++ numberSides (s + xs.length) ys := by
  intro xs
  induction xs with
  | nil => intro ys s; simp [numberSides]
  | cons x xs ih =>
    intro ys s
    simp only [List.cons_append, numberSides, List.length_cons, List.append_eq, ih]
    have h2 : s + 1 + xs.length = s + (xs.length + 1) := by omega
    rw [h2]

/-- The side-variation walk is exactly the sequential numbering of the
branch lines along the main spine, whenever no spine move is empty. -/
theorem extractSide_eq : ∀ (k : Nat) (n : Node) (path : List String) (cnt : Nat),
    sizeOf n ≤ k → spineNE n = true →
    extractSideVariations n path cnt =
      (cnt + (branchLines n path).length, numberSides (cnt + 1) (branchLines n path)) := by
  intro k
  induction k with
  | zero =>
    intro n path cnt hle
    cases n with
    | mk f m ch => simp [Node.mk.sizeOf_spec] at hle
  | succ k ih =>
    intro n path cnt hle hsp
    cases n with
    | mk f m ch =>
      cases ch with
      | nil =>
        rw [extractSideVariations, branchLines]
        simp [numberSides]
      | cons c0 cs =>
        rw [extractSideVariations, branchLines]
        have hfirst : (if 1 < (c0 :: cs).length then sidePushLoop cs path cnt else (cnt, ([] : List Variation)))
            = sidePushLoop cs path cnt := by
          by_cases h1 : 1 < (c0 :: cs).length
          · rw [if_pos h1]
          · have hcs : cs = [] := by
              cases cs with
              | nil => rfl
              | cons a l => simp at h1
            subst hcs
            rw [if_neg h1]
            simp [sidePushLoop]
        rw [hfirst, sidePushLoop_eq]
        rw [spineNE] at hsp
        simp only [Bool.and_eq_true, Bool.not_eq_true'] at hsp
        have hne : ¬ c0.move = "" := by
          intro hx
          rw [hx] at hsp
          simp at hsp
        rw [if_neg hne]
        have hsz : sizeOf c0 ≤ k := by
          simp only [Node.mk.sizeOf_spec, List.cons.sizeOf_spec] at hle
          omega
        rw [ih c0 (path ++ [c0.move]) (cnt + cs.length) hsz hsp.2]
        rw [numberSides_append, Prod.mk.injEq]
        refine ⟨?_, ?_⟩
        · simp only [List.length_map, List.length_append]
          omega
        · have h3 : cnt + 1 + (cs.map fun b => path ++ collectMovesFromBranch b).length
              = cnt + cs.length + 1 := by
            simp only [List.length_map]
            omega
          rw [h3]

/-- Well-formedness forces every spine move to be nonempty. -/
theorem treeOk_spineNE : ∀ (k : Nat) (n : Node) (fen : Position),
    sizeOf n ≤ k → TreeOk fen n → spineNE n = true := by
  intro k
  induction k with
  | zero =>
    intro n fen hle
    cases n with
    | mk f m ch => simp [Node.mk.sizeOf_spec] at hle
  | succ k ih =>
    intro n fen hle hok
    cases hok with
    | node fen mv ch fen2 hne happ hch =>
      cases ch with
      | nil => rw [spineNE]
      | cons c0 cs =>
        rw [spineNE]
        have hc0 : TreeOk fen2 c0 := hch c0 (by simp)
        have hm : ¬ c0.move = "" := by
          cases hc0 with
          | node _ mv2 ch2 fen3 hne2 _ _ => simpa [Node.move] using hne2
        have hsp : spineNE c0 = true := by
          refine ih c0 fen2 ?_ hc0
          simp only [Node.mk.sizeOf_spec, List.cons.sizeOf_spec] at hle ⊢
          omega
        simp [hm, hsp]

theorem rootSpineNE : ∀ (n : Node) (fen : Position),
    (∀ c ∈ Node.children n, TreeOk fen c) → spineNE n = true := by
  intro n fen hch
  cases n with
  | mk f m ch =>
    cases ch with
    | nil => rw [spineNE]
    | cons c0 cs =>
      rw [spineNE]
      have hc0 : TreeOk fen c0 := hch c0 (by simp [Node.children])
      have hm : ¬ c0.move = "" := by
        cases hc0 with
        | node _ mv2 ch2 fen3 hne2 _ _ => simpa [Node.move] using hne2
      have hsp : spineNE c0 = true := treeOk_spineNE (sizeOf c0) c0 fen le_rfl hc0
      simp [hm, hsp]

/-- On trees whose spine moves are nonempty, the flattener agrees with
the sequential-numbering description. -/
theorem flatten_eq_spec : ∀ (root : Node), spineNE root = true →
    extractVariationsFromTree root = specFlatten root := by
  intro root hsp
  rw [extractVariationsFromTree, specFlatten]
  by_cases hm : 0 < (extractMainLine root).length
  · simp only [if_pos hm]
    rw [extractSide_eq (sizeOf root) root [] 1 le_rfl hsp]
  · simp only [if_neg hm]
    rw [extractSide_eq (sizeOf root) root [] 0 le_rfl hsp]
/-! ### Claim theorems -/

/-- C1: the claim states that for the input
"1.e4 (1.d4 d5 2.c4) 1...c5 (1...e5 2.Nf3 Nc6)" parseGame returns a tree
whose root has the children e4 (main) and d4 (variation) and whose e4
node has the children c5 and e5, each variation being a sibling
alternative of the move it replaces.  The code does not: buildTree
replays every variation from the position after the annotated move and
attaches it beneath that move's node, so the variation move d4 is
validated on the position after 1.e4 with black to move, is rejected,
and the whole parse aborts with the Illegal-SAN error carrying "d4".
This theorem evaluates the embedded parseGame at that input. -/
theorem c1_variation_siblings_rejected :
    parseGame "1.e4 (1.d4 d5 2.c4) 1...c5 (1...e5 2.Nf3 Nc6)"
      = .error (.illegalSan "d4") := rfl

/-- C2: the claim states that in every tree parseGame returns, children
at index zero is the main-line continuation.  The code violates this:
for the input "1.e4 e5 (2.Nf3) 2.Nc3" the parse succeeds, and the node
reached by descending twice along first children (the e5 node) lists the
variation branch "Nf3" at index zero and the main-line continuation
"Nc3" at index one, because buildTree pushes variation children before
the continuation child.  This theorem evaluates the child moves of that
node. -/
theorem c2_variation_precedes_mainline :
    (parseGame "1.e4 e5 (2.Nf3) 2.Nc3").map
        (fun t => (descend t [0, 0]).map (fun n => n.children.map Node.move))
      = .ok (some ["Nf3", "Nc3"]) := rfl

/-- C3: the claim states that for every input on which parseGame returns
a tree, every Variation the flattener extracts from that tree has a
moves list that replays from the standard initial position through the
validator without any legality failure. -/
theorem c3_variations_replay : ∀ (s : String) (root : Node), parseGame s = .ok root →
    ∀ v ∈ extractVariationsFromTree root, (replayMoves v.moves).isSome = true := by
  intro s root h v hv
  obtain ⟨-, -, hch⟩ := parseGame_shape s root h
  rw [extractVariationsFromTree] at hv
  by_cases hm : 0 < (extractMainLine root).length
  · simp only [if_pos hm] at hv
    rcases List.mem_append.mp hv with h1 | h2
    · simp only [List.mem_singleton] at h1
      subst h1
      exact mainline_replay (sizeOf root) root startPos le_rfl hch
    · exact sides_replay (sizeOf root) root [] 1 startPos le_rfl hch rfl v h2
  · simp only [if_neg hm] at hv
    rcases List.mem_append.mp hv with h1 | h2
    · simp at h1
    · exact sides_replay (sizeOf root) root [] 0 startPos le_rfl hch rfl v h2

/-- The tree parseGame yields on "1.e4 e5", used to witness C3. -/
def demoTreeC3 : Node :=
  match parseGame "1.e4 e5" with
  | .ok t => t
  | .error _ => .mk startPos "" []

theorem c3_witness :
    parseGame "1.e4 e5" = .ok demoTreeC3 ∧
      (replayMoves (((extractVariationsFromTree demoTreeC3).headD
        ⟨"", "", [], false⟩).moves)).isSome = true := by
  refine ⟨rfl, ?_⟩
  refine c3_variations_replay "1.e4 e5" demoTreeC3 rfl _ ?_
  decide

/-- C4: the claim states that parseGame on "1.e4 e5 2.Qh5 Qxe4" raises
the typed Illegal-SAN error identifying the first move that is not legal
from the board state reached by replaying its predecessors, carrying the
offending move text "Qxe4".  The three predecessors replay, the board so
reached rejects "Qxe4", and the parse aborts with exactly that move text
in the error. -/
theorem c4_illegal_move_error :
    (replayMoves ["e4", "e5", "Qh5"]).isSome = true ∧
      replayMoves ["e4", "e5", "Qh5", "Qxe4"] = none ∧
      parseGame "1.e4 e5 2.Qh5 Qxe4" = .error (.illegalSan "Qxe4") :=
  ⟨rfl, rfl, rfl⟩

/-- C5 counterexample: the claim states that the flattener gives the
main line the id "main", gives side variations composite ids derived
from branch indices, and emits a Variation for every branch point,
including branch points inside a variation branch.  On the tree for
"1.e4 e5 (2.Nf3) 2.d4 (2...c6) 2...exd4" the code instead gives the main
line the id "variation-1", numbers the single emitted side variation
sequentially as "variation-2", and emits nothing for the branch point
inside the side branch: the branch move "exd4" appears in no Variation
at all. -/
theorem c5_counterexample :
    (parseGame "1.e4 e5 (2.Nf3) 2.d4 (2...c6) 2...exd4").map extractVariationsFromTree
      = .ok [⟨"variation-1", "Main Line", ["e4", "e5", "Nf3"], true⟩,
          ⟨"variation-2", "Variation 2", ["e4", "e5", "d4", "c6"], false⟩] := rfl

/-- C5 amended: on every tree parseGame produces, the flattener emits
first the main line (when nonempty) with id "variation-1", name
"Main Line" and the mainline flag, then exactly one record per side
branch hanging off the main spine, in top-down left-to-right order,
with sequential ids "variation-N" and moves equal to the spine prefix
followed by the branch's own first-child chain; branch points strictly
inside side branches are not visited and produce no record. -/
theorem c5_amended_flattener : ∀ (s : String) (root : Node), parseGame s = .ok root →
    extractVariationsFromTree root = specFlatten root := by
  intro s root h
  obtain ⟨-, -, hch⟩ := parseGame_shape s root h
  exact flatten_eq_spec root (rootSpineNE root startPos hch)

/-- The tree parseGame yields on the C5 counterexample input, used to
witness the amended C5. -/
def demoTreeC5 : Node :=
  match parseGame "1.e4 e5 (2.Nf3) 2.d4 (2...c6) 2...exd4" with
  | .ok t => t
  | .error _ => .mk startPos "" []

theorem c5_witness :
    parseGame "1.e4 e5 (2.Nf3) 2.d4 (2...c6) 2...exd4" = .ok demoTreeC5 ∧
      extractVariationsFromTree demoTreeC5 = specFlatten demoTreeC5 :=
  ⟨rfl, c5_amended_flattener "1.e4 e5 (2.Nf3) 2.d4 (2...c6) 2...exd4" demoTreeC5 rfl⟩

/-- C6: the claim states that when a left brace has no matching right
brace, the sanitizer preserves exactly the move-number token found
inside the dangling comment.  The code does not: the replacement
callback of the repair regex has no capture group to read, so its second
parameter is the match offset, and the matched region is replaced by
that offset rendered in decimal.  On the input below the region
"\x7bbroken comment 1..." starts at offset five, so the output contains
"5" where the claim requires the preserved token "1...". -/
theorem c6_sanitizer_offset_bug :
    cleanPgn "1.e4 \x7bbroken comment 1... e5 2.Nf3 *" = "1.e4 5 e5 2.Nf3 *" ∧
      ¬ cleanPgn "1.e4 \x7bbroken comment 1... e5 2.Nf3 *" = "1.e4 1... e5 2.Nf3 *" :=
  ⟨rfl, by decide⟩

/-- C7: the claim states that parseGame applied to
"1.e4 \x7bbroken comment 1... e5 2.Nf3 *" does not throw and that the
first main-line move of the returned tree is "e4".  The root of the
returned tree has exactly one child and its move is "e4". -/
theorem c7_unterminated_comment_parses :
    (parseGame "1.e4 \x7bbroken comment 1... e5 2.Nf3 *").map
        (fun t => t.children.map Node.move)
      = .ok ["e4"] := rfl

/-- C8 counterexample: the claim states that the best-effort fallback of
PGNParser.parsePGN is tagged distinctly from a validated result, so that
a caller inspecting the returned records can always distinguish the two.
It is not: on "1.e4 e5" the fallback branch and the validated branch
return the same single record, with id "main", name "Main Line",
mainline true and no distinguishing field, so no inspection of the
returned records can tell them apart. -/
theorem c8_counterexample :
    fallbackResult "1.e4 e5" = [⟨"main", "Main Line", ["e4", "e5"], none, true⟩] ∧
      parsePGN "1.e4 e5" = [⟨"main", "Main Line", ["e4", "e5"], none, true⟩] :=
  ⟨rfl, rfl⟩

/-- C8 amended: every record the fallback branch returns carries the
identical tagging the validated path gives its main line, namely id
"main", name "Main Line" and the mainline flag; the record type has no
field marking a result as unvalidated, so callers cannot distinguish the
unvalidated move list from a validated main line. -/
theorem c8_amended_tagging : ∀ (pgn : String) (v : PVariation), v ∈ fallbackResult pgn →
    v.id = "main" ∧ v.name = "Main Line" ∧ v.mainline = true := by
  intro pgn v hv
  rw [fallbackResult] at hv
  by_cases h0 : 0 < (extractMovesManually pgn).length
  · simp only [if_pos h0, List.mem_singleton] at hv
    subst hv
    exact ⟨rfl, rfl, rfl⟩
  · simp only [if_neg h0] at hv
    simp at hv

theorem c8_witness :
    (⟨"main", "Main Line", ["e4", "e5"], none, true⟩ : PVariation) ∈ fallbackResult "1.e4 e5" ∧
      (⟨"main", "Main Line", ["e4", "e5"], none, true⟩ : PVariation).id = "main" := by
  have hm : (⟨"main", "Main Line", ["e4", "e5"], none, true⟩ : PVariation)
      ∈ fallbackResult "1.e4 e5" := by decide
  exact ⟨hm, (c8_amended_tagging "1.e4 e5" _ hm).1⟩

/-- C9: the claim states that every tree parseGame returns satisfies:
the root's fen is the standard initial position and its move the empty
string; every child of the root has the root's fen; every non-root
node's move is accepted by the validator in strict mode from that node's
own fen; and every child of a non-root node carries the position
obtained by applying the node's move to its fen.  The last two points
are the TreeOk predicate, which pins each node's fen to the position it
is well formed at. -/
theorem c9_tree_invariant : ∀ (s : String) (root : Node), parseGame s = .ok root →
    Node.fen root = startPos ∧ Node.move root = "" ∧
      (∀ c ∈ Node.children root, Node.fen c = startPos) ∧
      (∀ c ∈ Node.children root, TreeOk startPos c) := by
  intro s root h
  obtain ⟨h1, h2, h3⟩ := parseGame_shape s root h
  refine ⟨h1, h2, ?_, h3⟩
  intro c hc
  cases h3 c hc with
  | node fen mv ch fen2 _ _ _ => rfl

/-- The tree parseGame yields on "1.e4 c5", used to witness C9. -/
def demoTreeC9 : Node :=
  match parseGame "1.e4 c5" with
  | .ok t => t
  | .error _ => .mk startPos "" []

theorem c9_witness :
    parseGame "1.e4 c5" = .ok demoTreeC9 ∧
      Node.fen demoTreeC9 = startPos ∧ Node.move demoTreeC9 = "" := by
  refine ⟨rfl, ?_, ?_⟩
  · exact (c9_tree_invariant "1.e4 c5" demoTreeC9 rfl).1
  · exact (c9_tree_invariant "1.e4 c5" demoTreeC9 rfl).2.1

/-- Two successive calls of parseGame on the same input, as one value. -/
def parseGameTwice (s : String) : Except PGNError Node × Except PGNError Node :=
  (parseGame s, parseGame s)

/-- C10: the claim states that two calls of parseGame on the same input
behave identically, either both throwing or both returning deep-equal
trees, with no state carried across calls.  The embedded parseGame is a
pure function of its input, which is faithful to the source: parseGame
reads no module-level mutable state and builds a fresh validator
instance per call, so the components of parseGameTwice coincide. -/
theorem c10_deterministic : ∀ s : String, (parseGameTwice s).1 = (parseGameTwice s).2 := by
  intro s
  rfl

end PgnBuddy
